import Mathlib

/-!
A verification development for a small reverse-proxy load balancer written
in Go (single file `main.go`).  The development shallowly embeds the node
pool, the recursive weighted max-heapify routine (`Heapify`), the health
update (`SetProps` / `SetNodeStatus`), node selection (`NextNode`) and the
request dispatch / retry / failover state machine (`loadBalancer` plus the
reverse proxy's error handler) as executable Lean functions, and proves or
refutes the specification's claims about them.

Float64 weights are modelled as rationals: the operations the code performs
on weights (halving, doubling, dividing by three) are treated as exact.
-/

/-- A backend node: target address (identity), liveness flag, selection
weight.  Mirrors Go's `Node` struct (the reverse-proxy handle is an
external collaborator and carries no state relevant to the claims). -/
structure Node where
  url : String
  Active : Bool
  weight : ℚ
deriving DecidableEq, Repr

/-- Pointwise update of a pool function at one index. -/
def upd (f : Nat → Node) (i : Nat) (v : Node) : Nat → Node :=
  fun j => if j = i then v else f j

/-- `NodePool.Swap`: exchange the nodes at positions `i` and `j`
(Go: `temp := np.nodes[i]; np.nodes[i] = np.nodes[j]; np.nodes[j] = temp`). -/
def Swap (f : Nat → Node) (i j : Nat) : Nat → Node :=
  upd (upd f i (f j)) j (f i)

/-- `Node.getWeight`. -/
def getW (f : Nat → Node) (i : Nat) : ℚ :=
  (f i).weight

/-- `Node.isActive`. -/
def isActive (f : Nat → Node) (i : Nat) : Bool :=
  (f i).Active

/-- Halve the weight of the node at `i` (Go: `np.nodes[idx].weight /= 2`). -/
def halveAt (f : Nat → Node) (i : Nat) : Nat → Node :=
  upd f i { f i with weight := (f i).weight / 2 }

/-- Double the weight of the node at `i` (Go: `np.nodes[idx].weight *= 2`). -/
def doubleAt (f : Nat → Node) (i : Nat) : Nat → Node :=
  upd f i { f i with weight := (f i).weight * 2 }

/-- The `largest` computation inside `Heapify`: starting from `idx`,
a child (left `2*idx+1`, then right `2*idx+2`) replaces the current
candidate when it is in bounds, active, and has strictly greater weight
than the current candidate. -/
def largestOf (n : Nat) (f : Nat → Node) (idx : Nat) : Nat :=
  let l1 := if 2*idx+1 < n ∧ isActive f (2*idx+1) = true ∧ getW f idx < getW f (2*idx+1)
            then 2*idx+1 else idx
  if 2*idx+2 < n ∧ isActive f (2*idx+2) = true ∧ getW f l1 < getW f (2*idx+2)
  then 2*idx+2 else l1

/-- Fuel-indexed translation of the recursive `NodePool.Heapify`.
The body is a line-by-line translation of the Go function; the fuel
argument only makes the recursion structural, and `heapifyO_eq_some_heapify`
below proves that any fuel exceeding `n - idx` is enough (the recursion
always moves strictly towards a leaf).

Go source, with `n = len(np.nodes)`:
* if `root`, halve the weight at `idx` before comparing;
* compute `largest` among `idx` and the in-bounds *active* children;
* if `largest != idx`: if `root`, double the weight at `idx` back, swap
  `largest` and `idx`, and recurse at `largest` with `root = false`;
* then, for each in-bounds child whose *current* weight is `< 1`,
  recurse at that child with `root = false`. -/
def HeapifyF : Nat → Nat → (Nat → Node) → Nat → Bool → (Nat → Node)
  | 0, _, f, _, _ => f
  | fuel+1, n, f, idx, root =>
    let f1 := if root then halveAt f idx else f
    let largest := largestOf n f1 idx
    let f2 := if largest = idx then f1
              else HeapifyF fuel n (Swap (if root then doubleAt f1 idx else f1) largest idx)
                     largest false
    let f3 := if 2*idx+1 < n ∧ getW f2 (2*idx+1) < 1
              then HeapifyF fuel n f2 (2*idx+1) false else f2
    if 2*idx+2 < n ∧ getW f3 (2*idx+2) < 1
    then HeapifyF fuel n f3 (2*idx+2) false else f3

/-- `NodePool.Heapify` on a pool of `n` nodes: fuel `n + 1` always
suffices (theorem `heapify_terminates_in_depth_bound`). -/
def Heapify (n : Nat) (f : Nat → Node) (idx : Nat) (root : Bool) : Nat → Node :=
  HeapifyF (n + 1) n f idx root

/-- Possibly-diverging interpreter for the raw `Heapify` recursion:
`none` means the recursion was not finished within `fuel` nested calls.
Used to state that the recursion terminates within `n - idx` calls. -/
def HeapifyO : Nat → Nat → (Nat → Node) → Nat → Bool → Option (Nat → Node)
  | 0, _, _, _, _ => none
  | fuel+1, n, f, idx, root =>
    let f1 := if root then halveAt f idx else f
    let largest := largestOf n f1 idx
    (if largest = idx then some f1
     else HeapifyO fuel n (Swap (if root then doubleAt f1 idx else f1) largest idx)
            largest false).bind fun f2 =>
    (if 2*idx+1 < n ∧ getW f2 (2*idx+1) < 1
     then HeapifyO fuel n f2 (2*idx+1) false else some f2).bind fun f3 =>
    if 2*idx+2 < n ∧ getW f3 (2*idx+2) < 1
    then HeapifyO fuel n f3 (2*idx+2) false else some f3

/-- The swap-driven part of one `Heapify` call, applied to the pool `f1`
in which the root decay (if any) has already happened. -/
def trunkF (fuel n : Nat) (f1 : Nat → Node) (idx : Nat) (root : Bool) : Nat → Node :=
  if largestOf n f1 idx = idx then f1
  else HeapifyF fuel n
    (Swap (if root then doubleAt f1 idx else f1) (largestOf n f1 idx) idx)
    (largestOf n f1 idx) false

/-- The corrective pass of `Heapify` at child position `c`. -/
def corrF (fuel n : Nat) (g : Nat → Node) (c : Nat) : Nat → Node :=
  if c < n ∧ getW g c < 1 then HeapifyF fuel n g c false else g

/-- `trunkF` for the possibly-diverging interpreter. -/
def trunkO (fuel n : Nat) (f1 : Nat → Node) (idx : Nat) (root : Bool) :
    Option (Nat → Node) :=
  if largestOf n f1 idx = idx then some f1
  else HeapifyO fuel n
    (Swap (if root then doubleAt f1 idx else f1) (largestOf n f1 idx) idx)
    (largestOf n f1 idx) false

/-- `corrF` for the possibly-diverging interpreter. -/
def corrO (fuel n : Nat) (g : Nat → Node) (c : Nat) : Option (Nat → Node) :=
  if c < n ∧ getW g c < 1 then HeapifyO fuel n g c false else some g

/-- The pool's contents as a list: positions `0 … n-1` in order. -/
def reify (n : Nat) (f : Nat → Node) : List Node :=
  (List.range n).map f

/-- `Node.SetProps`: set the liveness flag; when unreachable divide the
weight by 3; when reachable and the weight is below 1, double it;
otherwise leave the weight alone. -/
def SetProps (nd : Node) (status : Bool) : Node :=
  { nd with
    Active := status,
    weight := if status = false then nd.weight / 3
              else if nd.weight < 1 then nd.weight * 2
              else nd.weight }

/-- `NodePool.SetNodeStatus`: linear scan for the first node whose URL
matches, apply `SetProps` to it, and stop.  No heap repair is performed
here. -/
def SetNodeStatus (n : Nat) (f : Nat → Node) (url : String) (status : Bool) : Nat → Node :=
  match (List.range n).find? (fun i => (f i).url == url) with
  | some i => upd f i (SetProps (f i) status)
  | none => f

/-- `NodePool.NextNode`: the round-robin body is commented out in the
source; the live code is `return np.nodes[0]`, which on an empty slice is
a Go runtime panic (index out of range), not a nil result. -/
def NextNode (n : Nat) (f : Nat → Node) : Except String Node :=
  if n = 0 then .error "index out of range" else .ok (f 0)

/-- Observable events of one dispatched request. -/
inductive Ev where
  | forward (url : String)
  | delay (ms : Nat)
  | repair (idx : Nat) (root : Bool)
  | setStatus (url : String) (active : Bool)
  | respond (code : Nat) (msg : String)
  | panic (msg : String)
deriving DecidableEq, Repr

/-- Result of running (part of) a dispatch: the pool afterwards, the
events emitted, and the index of the next forwarding outcome to consume. -/
structure LBRes where
  pool : Nat → Node
  trace : List Ev
  next : Nat

/-- One step function for the mutually recursive pair
`loadBalancer` / `proxy.ServeHTTP`-with-`ErrorHandler`, structural on
`fuel` (the real recursion is bounded by the `attempts > 3` guard and the
`retries < 3` guard; fuel `16` is ample for any request).

`serving = none` is a `loadBalancer` frame with attempt counter `a` and
retry counter `r` taken from the request context:
* if `a > 3`, respond 503 "Service not available";
* otherwise select `NextNode` (panics on an empty pool — the source's
  `node != nil` check can never fail, so its 503 branch is dead code);
* forward through the selected node's proxy (a `serving` frame), and when
  the proxy call returns — whether the forward succeeded or its error
  handler completed — run `Heapify(0, true)`.

`serving = some url` is a proxy call to `url`; `oc k` tells whether the
`k`-th forwarding attempt of this request succeeds.  On failure the error
handler runs: with `r < 3`, wait 10 ms and re-enter the same proxy with
`r+1` (the same node); otherwise fail over: with `a >= 3` first mark this
node dead via `SetNodeStatus`, then re-enter `loadBalancer` with `a+1`
(the retry counter stays in the request context — it is not reset). -/
def stepF : Nat → Nat → (Nat → Node) → (Nat → Bool) → Nat → Nat → Nat →
    Option String → LBRes
  | 0, _, f, _, k, _, _, _ => ⟨f, [], k⟩
  | fuel+1, n, f, oc, k, a, r, none =>
    if a > 3 then ⟨f, [.respond 503 "Service not available"], k⟩
    else
      match NextNode n f with
      | .error m => ⟨f, [.panic m], k⟩
      | .ok node =>
        let res := stepF fuel n f oc k a r (some node.url)
        ⟨Heapify n res.pool 0 true, res.trace ++ [.repair 0 true], res.next⟩
  | fuel+1, n, f, oc, k, a, r, some url =>
    if oc k then ⟨f, [.forward url], k+1⟩
    else if r < 3 then
      let res := stepF fuel n f oc (k+1) a (r+1) (some url)
      ⟨res.pool, .forward url :: .delay 10 :: res.trace, res.next⟩
    else
      let f1 := if a ≥ 3 then SetNodeStatus n f url false else f
      let evs := if a ≥ 3 then [Ev.setStatus url false] else []
      let res := stepF fuel n f1 oc (k+1) (a+1) r none
      ⟨res.pool, .forward url :: (evs ++ res.trace), res.next⟩

/-- A `loadBalancer` call with attempt counter `a` and retry counter `r`. -/
def loadBalancer (fuel n : Nat) (f : Nat → Node) (oc : Nat → Bool)
    (k a r : Nat) : LBRes :=
  stepF fuel n f oc k a r none

/-- A `proxy.ServeHTTP` call (forward attempt plus error handler) for the
node at `url`. -/
def serveProxy (fuel n : Nat) (f : Nat → Node) (oc : Nat → Bool)
    (url : String) (k a r : Nat) : LBRes :=
  stepF fuel n f oc k a r (some url)

/-- A whole inbound request: the server handler is `loadBalancer`, and a
fresh request context carries `attempts = 1` and `retries = 0`. -/
def Dispatch (n : Nat) (f : Nat → Node) (oc : Nat → Bool) : LBRes :=
  loadBalancer 16 n f oc 0 1 0

/-- The node identity/liveness projection: everything of a node except its
weight. -/
def keyOf (nd : Node) : String × Bool :=
  (nd.url, nd.Active)

/-- Build a pool function from a list of nodes (positions past the end
hold a dummy, which `reify` and in-bounds claims never look at). -/
def poolOf (l : List Node) : Nat → Node :=
  fun i => l.getD i ⟨"", false, 0⟩

/-- Four active nodes, weights `1, 2, 1/2, 3`. -/
def cePool4 : Nat → Node :=
  poolOf [⟨"a", true, 1⟩, ⟨"b", true, 2⟩, ⟨"c", true, 1/2⟩, ⟨"d", true, 3⟩]

/-- Three active nodes, weights `1, 3/5, 3/10`: a valid weighted max-heap. -/
def cePool3 : Nat → Node :=
  poolOf [⟨"a", true, 1⟩, ⟨"b", true, 3/5⟩, ⟨"c", true, 3/10⟩]

/-- A single active node of weight 1. -/
def onePool : Nat → Node :=
  poolOf [⟨"a", true, 1⟩]

/-- A single inactive node of weight 1 (a pool with zero active nodes). -/
def onePoolDead : Nat → Node :=
  poolOf [⟨"a", false, 1⟩]

/-- A forwarding oracle under which every forwarding attempt fails. -/
def allFail : Nat → Bool :=
  fun _ => false

/-! ### Basic facts about pool updates -/

theorem upd_self (f : Nat → Node) (i : Nat) (v : Node) : upd f i v i = v := by
  simp [upd]

theorem upd_ne (f : Nat → Node) (i : Nat) (v : Node) (j : Nat) (h : j ≠ i) :
    upd f i v j = f j := by
  simp [upd, h]

theorem upd_eta (f : Nat → Node) (i : Nat) : upd f i (f i) = f := by
  funext j
  by_cases h : j = i
  · subst h; simp [upd]
  · simp [upd, h]

theorem length_reify (n : Nat) (f : Nat → Node) : (reify n f).length = n := by
  simp [reify]

theorem getElem_reify (n : Nat) (f : Nat → Node) (j : Nat)
    (h1 : j < (reify n f).length) : (reify n f).get ⟨j, h1⟩ = f j := by
  simp [reify]

theorem reify_upd (n : Nat) (f : Nat → Node) (i : Nat) (v : Node) (h : i < n) :
    reify n (upd f i v) = (reify n f).set i v := by
  apply List.ext_getElem
  · simp [reify]
  · intro j hj1 hj2
    by_cases hji : j = i
    · subst hji
      simp [reify, upd, List.getElem_set, length_reify] at hj1 ⊢
    · simp [reify, upd, List.getElem_set, hji, Ne.symm hji]

theorem reify_upd_ge (n : Nat) (f : Nat → Node) (i : Nat) (v : Node) (h : n ≤ i) :
    reify n (upd f i v) = reify n f := by
  apply List.ext_getElem
  · simp [reify]
  · intro j hj1 hj2
    have hj : j < n := by simpa [length_reify] using hj1
    have : j ≠ i := by omega
    simp [reify, upd, this]

theorem set_get_self (l : List Node) (i : Nat) (hi : i < l.length) :
    l.set i (l.get ⟨i, hi⟩) = l := by
  apply List.ext_getElem
  · simp
  · intro j h1 h2
    simp [List.getElem_set]
    intro hij; subst hij; rfl

/-! ### Swapping two positions permutes the pool -/

theorem get_cons_set_perm : ∀ (t : List Node) (m : Nat) (h : m < t.length) (a : Node),
    (t.get ⟨m, h⟩ :: t.set m a).Perm (a :: t)
  | b :: t', 0, _, a => by
    simpa using List.Perm.swap a b t'
  | b :: t', m+1, h, a => by
    have hm : m < t'.length := by simpa using Nat.lt_of_succ_lt_succ h
    have ih := get_cons_set_perm t' m hm a
    have p1 : (t'.get ⟨m, hm⟩ :: b :: t'.set m a).Perm
        (b :: t'.get ⟨m, hm⟩ :: t'.set m a) :=
      List.Perm.swap b (t'.get ⟨m, hm⟩) (t'.set m a)
    have p2 : (b :: t'.get ⟨m, hm⟩ :: t'.set m a).Perm (b :: a :: t') := ih.cons b
    have p3 : (b :: a :: t').Perm (a :: b :: t') := List.Perm.swap a b t'
    simpa using (p1.trans p2).trans p3

theorem set_set_perm_lt : ∀ (l : List Node) (i j : Nat), i < j → ∀ (hj : j < l.length)
    (hi : i < l.length), ((l.set i (l.get ⟨j, hj⟩)).set j (l.get ⟨i, hi⟩)).Perm l
  | a :: t, 0, k+1, _, hj, _ => by
    have hk : k < t.length := by simpa using Nat.lt_of_succ_lt_succ hj
    simpa using get_cons_set_perm t k hk a
  | a :: t, m+1, k+1, hij, hj, hi => by
    have hk : k < t.length := by simpa using Nat.lt_of_succ_lt_succ hj
    have hm : m < t.length := by simpa using Nat.lt_of_succ_lt_succ hi
    have ih := set_set_perm_lt t m k (Nat.lt_of_succ_lt_succ hij) hk hm
    simpa using ih.cons a

theorem set_set_perm (l : List Node) (i j : Nat) (hi : i < l.length)
    (hj : j < l.length) :
    ((l.set i (l.get ⟨j, hj⟩)).set j (l.get ⟨i, hi⟩)).Perm l := by
  rcases Nat.lt_trichotomy i j with h | h | h
  · exact set_set_perm_lt l i j h hj hi
  · subst h
    rw [List.set_set, set_get_self]
  · rw [List.set_comm _ _ _ (by omega)]
    exact set_set_perm_lt l j i h hi hj

theorem reify_swap_perm (n : Nat) (f : Nat → Node) (i j : Nat) (hi : i < n)
    (hj : j < n) : (reify n (Swap f i j)).Perm (reify n f) := by
  have hi' : i < (reify n f).length := by rw [length_reify]; exact hi
  have hj' : j < (reify n f).length := by rw [length_reify]; exact hj
  have e1 : reify n (Swap f i j) = ((reify n f).set i (f j)).set j (f i) := by
    unfold Swap
    rw [reify_upd _ _ _ _ hj, reify_upd _ _ _ _ hi]
  rw [e1, show f j = (reify n f).get ⟨j, hj'⟩ from (getElem_reify ..).symm,
      show f i = (reify n f).get ⟨i, hi'⟩ from (getElem_reify ..).symm]
  exact set_set_perm _ i j hi' hj'

/-! ### Structure of one `Heapify` unfolding -/

theorem HeapifyF_succ (fuel n : Nat) (f : Nat → Node) (idx : Nat) (root : Bool) :
    HeapifyF (fuel+1) n f idx root =
      corrF fuel n
        (corrF fuel n (trunkF fuel n (if root then halveAt f idx else f) idx root)
          (2*idx+1))
        (2*idx+2) := rfl

theorem HeapifyF_succ_false (fuel n : Nat) (f : Nat → Node) (idx : Nat) :
    HeapifyF (fuel+1) n f idx false =
      corrF fuel n (corrF fuel n (trunkF fuel n f idx false) (2*idx+1)) (2*idx+2) :=
  HeapifyF_succ fuel n f idx false

theorem HeapifyF_succ_true (fuel n : Nat) (f : Nat → Node) (idx : Nat) :
    HeapifyF (fuel+1) n f idx true =
      corrF fuel n
        (corrF fuel n (trunkF fuel n (halveAt f idx) idx true) (2*idx+1)) (2*idx+2) :=
  HeapifyF_succ fuel n f idx true

theorem trunkF_false (fuel n : Nat) (f : Nat → Node) (idx : Nat) :
    trunkF fuel n f idx false =
      if largestOf n f idx = idx then f
      else HeapifyF fuel n (Swap f (largestOf n f idx) idx) (largestOf n f idx) false := by
  simp [trunkF]

theorem trunkF_true (fuel n : Nat) (f1 : Nat → Node) (idx : Nat) :
    trunkF fuel n f1 idx true =
      if largestOf n f1 idx = idx then f1
      else HeapifyF fuel n (Swap (doubleAt f1 idx) (largestOf n f1 idx) idx)
        (largestOf n f1 idx) false := by
  simp [trunkF]

/-! ### Facts about `largestOf` -/

theorem largestOf_cases (n : Nat) (f : Nat → Node) (idx : Nat) :
    largestOf n f idx = idx ∨
    (largestOf n f idx = 2*idx+1 ∧ 2*idx+1 < n) ∨
    (largestOf n f idx = 2*idx+2 ∧ 2*idx+2 < n) := by
  simp only [largestOf]
  split
  · next h1 =>
    split
    · next h2 => exact Or.inr (Or.inr ⟨rfl, h2.1⟩)
    · exact Or.inr (Or.inl ⟨rfl, h1.1⟩)
  · split
    · next h2 => exact Or.inr (Or.inr ⟨rfl, h2.1⟩)
    · exact Or.inl rfl

theorem largestOf_ne (n : Nat) (f : Nat → Node) (idx : Nat)
    (h : largestOf n f idx ≠ idx) :
    idx < largestOf n f idx ∧ largestOf n f idx < n ∧ idx < n := by
  rcases largestOf_cases n f idx with h0 | ⟨h1, hb⟩ | ⟨h1, hb⟩
  · exact absurd h0 h
  · rw [h1]; omega
  · rw [h1]; omega

theorem doubleAt_halveAt (f : Nat → Node) (idx : Nat) :
    doubleAt (halveAt f idx) idx = f := by
  funext j
  by_cases hj : j = idx
  · subst hj
    unfold doubleAt
    rw [upd_self]
    unfold halveAt
    rw [upd_self]
    have h2 : (f j).weight / 2 * 2 = (f j).weight := div_mul_cancel₀ _ two_ne_zero
    simp [h2]
  · unfold doubleAt
    rw [upd_ne _ _ _ _ hj]
    exact upd_ne _ _ _ _ hj

/-! ### `Heapify` touches only positions at or above its start index -/

theorem heapifyF_below (fuel n : Nat) (f : Nat → Node) (idx : Nat) (root : Bool)
    (j : Nat) (hj : j < idx) : HeapifyF fuel n f idx root j = f j := by
  induction fuel generalizing f idx root with
  | zero => rfl
  | succ fuel ih =>
    have hco : ∀ (g : Nat → Node) (c : Nat), idx < c → g j = f j →
        corrF fuel n g c j = f j := by
      intro g c hc hg
      unfold corrF
      split
      · rw [ih g c false (by omega)]; exact hg
      · exact hg
    cases root with
    | false =>
      rw [HeapifyF_succ_false]
      have htr : trunkF fuel n f idx false j = f j := by
        rw [trunkF_false]
        by_cases hLi : largestOf n f idx = idx
        · rw [if_pos hLi]
        · rw [if_neg hLi]
          have hb := largestOf_ne n f idx hLi
          rw [ih _ _ _ (by omega)]
          unfold Swap
          rw [upd_ne _ _ _ _ (by omega), upd_ne _ _ _ _ (by omega)]
      exact hco _ _ (by omega) (hco _ _ (by omega) htr)
    | true =>
      rw [HeapifyF_succ_true]
      have hF1j : halveAt f idx j = f j := upd_ne f idx _ j (by omega)
      have htr : trunkF fuel n (halveAt f idx) idx true j = f j := by
        rw [trunkF_true]
        by_cases hLi : largestOf n (halveAt f idx) idx = idx
        · rw [if_pos hLi]; exact hF1j
        · rw [if_neg hLi]
          have hb := largestOf_ne n (halveAt f idx) idx hLi
          rw [ih _ _ _ (by omega)]
          unfold Swap
          rw [upd_ne _ _ _ _ (by omega), upd_ne _ _ _ _ (by omega),
            doubleAt_halveAt]
      exact hco _ _ (by omega) (hco _ _ (by omega) htr)

/-! ### `Heapify` with `root = false` permutes the pool, changing no node -/

theorem heapifyF_false_perm (fuel n : Nat) (f : Nat → Node) (idx : Nat) :
    (reify n (HeapifyF fuel n f idx false)).Perm (reify n f) := by
  induction fuel generalizing f idx with
  | zero => exact List.Perm.refl _
  | succ fuel ih =>
    rw [HeapifyF_succ_false]
    have hco : ∀ (g : Nat → Node) (c : Nat), (reify n g).Perm (reify n f) →
        (reify n (corrF fuel n g c)).Perm (reify n f) := by
      intro g c hg
      unfold corrF
      split
      · exact (ih g c).trans hg
      · exact hg
    have htr : (reify n (trunkF fuel n f idx false)).Perm (reify n f) := by
      rw [trunkF_false]
      by_cases hLi : largestOf n f idx = idx
      · rw [if_pos hLi]
      · rw [if_neg hLi]
        have hb := largestOf_ne n f idx hLi
        exact (ih _ _).trans (reify_swap_perm n f _ idx hb.2.1 hb.2.2)
    exact hco _ _ (hco _ _ htr)

theorem corrF_perm (fuel n : Nat) (g : Nat → Node) (c : Nat) :
    (reify n (corrF fuel n g c)).Perm (reify n g) := by
  unfold corrF
  split
  · exact heapifyF_false_perm fuel n g c
  · exact List.Perm.refl _

/-! ### `Heapify` with `root = true`: the stay case and the demote case -/

theorem heapifyF_true_stay (fuel n : Nat) (f : Nat → Node) (idx : Nat)
    (h : largestOf n (halveAt f idx) idx = idx) :
    (reify n (HeapifyF (fuel+1) n f idx true)).Perm (reify n (halveAt f idx)) := by
  rw [HeapifyF_succ_true]
  have htr : trunkF fuel n (halveAt f idx) idx true = halveAt f idx := by
    rw [trunkF_true, if_pos h]
  rw [htr]
  exact (corrF_perm ..).trans (corrF_perm ..)

theorem heapifyF_true_demote (fuel n : Nat) (f : Nat → Node) (idx : Nat)
    (h : largestOf n (halveAt f idx) idx ≠ idx) :
    (reify n (HeapifyF (fuel+1) n f idx true)).Perm (reify n f) := by
  rw [HeapifyF_succ_true, trunkF_true, if_neg h]
  have hb := largestOf_ne n (halveAt f idx) idx h
  rw [doubleAt_halveAt]
  exact ((corrF_perm ..).trans (corrF_perm ..)).trans
    ((heapifyF_false_perm ..).trans (reify_swap_perm n f _ idx hb.2.1 hb.2.2))

theorem heapifyF_true_at_stay (fuel n : Nat) (f : Nat → Node) (idx : Nat)
    (h : largestOf n (halveAt f idx) idx = idx) :
    HeapifyF (fuel+1) n f idx true idx = { f idx with weight := (f idx).weight / 2 } := by
  rw [HeapifyF_succ_true]
  have hcb : ∀ (g : Nat → Node) (c : Nat), idx < c → corrF fuel n g c idx = g idx := by
    intro g c hc
    unfold corrF
    split
    · exact heapifyF_below fuel n g c false idx hc
    · rfl
  rw [hcb _ _ (by omega), hcb _ _ (by omega), trunkF_true, if_pos h]
  exact upd_self ..

/-! ### Leaves: `Heapify` at a childless index is the identity -/

theorem heapifyF_leaf (fuel n : Nat) (f : Nat → Node) (idx : Nat)
    (h : n ≤ 2*idx+1) : HeapifyF fuel n f idx false = f := by
  cases fuel with
  | zero => rfl
  | succ fuel =>
    have hL : largestOf n f idx = idx := by
      rcases largestOf_cases n f idx with h0 | ⟨h1, hb⟩ | ⟨h1, hb⟩
      · exact h0
      · omega
      · omega
    have htr : trunkF fuel n f idx false = f := by
      rw [trunkF_false, if_pos hL]
    have hcF : ∀ (g : Nat → Node) (c : Nat), n ≤ c → corrF fuel n g c = g := by
      intro g c hc
      unfold corrF
      rw [if_neg (fun hcon => absurd hcon.1 (by omega))]
    rw [HeapifyF_succ_false, htr, hcF _ _ (by omega), hcF _ _ (by omega)]

/-! ### Fuel irrelevance, and termination of the raw recursion -/

theorem HeapifyO_succ (fuel n : Nat) (f : Nat → Node) (idx : Nat) (root : Bool) :
    HeapifyO (fuel+1) n f idx root =
      (trunkO fuel n (if root then halveAt f idx else f) idx root).bind fun f2 =>
      (corrO fuel n f2 (2*idx+1)).bind fun f3 => corrO fuel n f3 (2*idx+2) := rfl

theorem heapifyF_irrel (fuel : Nat) : ∀ (fuel' n : Nat) (f : Nat → Node) (idx : Nat)
    (root : Bool), n - idx < fuel → n - idx < fuel' →
    HeapifyF fuel n f idx root = HeapifyF fuel' n f idx root := by
  induction fuel with
  | zero => intro fuel' n f idx root h h'; omega
  | succ fuel ih =>
    intro fuel' n f idx root h h'
    cases fuel' with
    | zero => omega
    | succ fuel' =>
      rw [HeapifyF_succ, HeapifyF_succ]
      have hco : ∀ (g : Nat → Node) (c : Nat), idx < c →
          corrF fuel n g c = corrF fuel' n g c := by
        intro g c hc
        unfold corrF
        by_cases hcond : c < n ∧ getW g c < 1
        · rw [if_pos hcond, if_pos hcond]
          exact ih fuel' n g c false (by omega) (by omega)
        · rw [if_neg hcond, if_neg hcond]
      have htr : trunkF fuel n (if root then halveAt f idx else f) idx root =
          trunkF fuel' n (if root then halveAt f idx else f) idx root := by
        unfold trunkF
        by_cases hLi : largestOf n (if root then halveAt f idx else f) idx = idx
        · rw [if_pos hLi, if_pos hLi]
        · rw [if_neg hLi, if_neg hLi]
          have hb := largestOf_ne n (if root then halveAt f idx else f) idx hLi
          exact ih fuel' n _ _ false (by omega) (by omega)
      rw [htr, hco _ _ (by omega), hco _ _ (by omega)]

theorem heapifyO_some (fuel : Nat) : ∀ (n : Nat) (f : Nat → Node) (idx : Nat)
    (root : Bool), n - idx < fuel →
    HeapifyO fuel n f idx root = some (HeapifyF fuel n f idx root) := by
  induction fuel with
  | zero => intro n f idx root h; omega
  | succ fuel ih =>
    intro n f idx root h
    have hco : ∀ (g : Nat → Node) (c : Nat), idx < c →
        corrO fuel n g c = some (corrF fuel n g c) := by
      intro g c hc
      unfold corrO corrF
      by_cases hcond : c < n ∧ getW g c < 1
      · rw [if_pos hcond, if_pos hcond]
        exact ih n g c false (by omega)
      · rw [if_neg hcond, if_neg hcond]
    have htr : trunkO fuel n (if root then halveAt f idx else f) idx root =
        some (trunkF fuel n (if root then halveAt f idx else f) idx root) := by
      unfold trunkO trunkF
      by_cases hLi : largestOf n (if root then halveAt f idx else f) idx = idx
      · rw [if_pos hLi, if_pos hLi]
      · rw [if_neg hLi, if_neg hLi]
        have hb := largestOf_ne n (if root then halveAt f idx else f) idx hLi
        exact ih n _ _ false (by omega)
    rw [HeapifyO_succ, HeapifyF_succ, htr, Option.some_bind,
      hco _ _ (by omega), Option.some_bind, hco _ _ (by omega)]

/-! ### Membership helpers -/

theorem mem_reify_exists (n : Nat) (g h : Nat → Node)
    (hp : (reify n g).Perm (reify n h)) (j : Nat) (hj : j < n) :
    ∃ i, i < n ∧ g j = h i := by
  have hmem : g j ∈ reify n g := by
    simp only [reify, List.mem_map, List.mem_range]
    exact ⟨j, hj, rfl⟩
  have hmem2 : g j ∈ reify n h := hp.mem_iff.mp hmem
  simp only [reify, List.mem_map, List.mem_range] at hmem2
  obtain ⟨i, hi, hgi⟩ := hmem2
  exact ⟨i, hi, hgi.symm⟩

theorem reify_halveAt_keyOf (n : Nat) (f : Nat → Node) (idx : Nat) :
    (reify n (halveAt f idx)).map keyOf = (reify n f).map keyOf := by
  apply List.ext_getElem
  · simp [reify]
  · intro j h1 h2
    by_cases hj : j = idx
    · subst hj
      simp [reify, halveAt, upd, keyOf]
    · simp [reify, halveAt, upd, hj, keyOf]

/-! ### Claim C4: `SetHealth` is exactly the specified update -/

/-- C4.  For every node and boolean `reachable`, `SetProps` sets
`Active = reachable`; if unreachable it divides the weight by 3 regardless
of the prior activity state; if reachable and the weight is `< 1` it
exactly doubles the weight; if reachable and the weight is `≥ 1` the
weight is unchanged; the node's identity (every other field) is
untouched. -/
theorem setHealth_exact_update (nd : Node) (st : Bool) :
    (SetProps nd st).Active = st ∧
    (SetProps nd st).url = nd.url ∧
    (st = false → (SetProps nd st).weight = nd.weight / 3) ∧
    (st = true → nd.weight < 1 → (SetProps nd st).weight = nd.weight * 2) ∧
    (st = true → 1 ≤ nd.weight → (SetProps nd st).weight = nd.weight) := by
  refine ⟨rfl, rfl, ?_, ?_, ?_⟩
  · intro h; subst h; simp [SetProps]
  · intro h hw; subst h; simp [SetProps, hw]
  · intro h hw; subst h; simp [SetProps, not_lt.mpr hw]

/-- Witness for C4 at concrete nodes: the penalty, the recovery boost and
the no-op case, each read off from `setHealth_exact_update`. -/
theorem setHealth_exact_update_witness :
    (SetProps ⟨"a", true, 1/2⟩ false).weight = (1/2 : ℚ) / 3 ∧
    (SetProps ⟨"a", false, 1/2⟩ true).weight = (1/2 : ℚ) * 2 ∧
    (SetProps ⟨"a", true, 2⟩ true).weight = (2 : ℚ) :=
  ⟨(setHealth_exact_update ⟨"a", true, 1/2⟩ false).2.2.1 rfl,
   (setHealth_exact_update ⟨"a", false, 1/2⟩ true).2.2.2.1 rfl (by norm_num),
   (setHealth_exact_update ⟨"a", true, 2⟩ true).2.2.2.2 rfl (by norm_num)⟩


/-! ### Claim C10: `Repair` preserves the node population -/

/-- C10.  Any `Repair` call (any in-bounds index, root or not) leaves the
pool with exactly the same nodes as a multiset — the length is unchanged
and the multiset of (identity, liveness) pairs is permuted, never grown,
shrunk or duplicated (only weights can change, and only via the root
decay). -/
theorem repair_preserves_population (n : Nat) (f : Nat → Node) (idx : Nat)
    (root : Bool) (h : idx < n) :
    ((reify n (Heapify n f idx root)).map keyOf).Perm ((reify n f).map keyOf) ∧
    (reify n (Heapify n f idx root)).length = (reify n f).length := by
  constructor
  · unfold Heapify
    cases root with
    | false => exact (heapifyF_false_perm (n+1) n f idx).map keyOf
    | true =>
      by_cases hst : largestOf n (halveAt f idx) idx = idx
      · have hp := (heapifyF_true_stay n n f idx hst).map keyOf
        rw [reify_halveAt_keyOf n f idx] at hp
        exact hp
      · exact (heapifyF_true_demote n n f idx hst).map keyOf
  · rw [length_reify, length_reify]

/-- Witness for C10: the population of the 4-node pool survives a root
repair. -/
theorem repair_preserves_population_witness :
    ((reify 4 (Heapify 4 cePool4 0 true)).map keyOf).Perm
      ((reify 4 cePool4).map keyOf) :=
  (repair_preserves_population 4 cePool4 0 true (by norm_num)).1

/-! ### Claim C9: the `Repair` recursion terminates -/

/-- C9.  The raw `Heapify` recursion, interpreted with a step budget
(`HeapifyO`, which returns `none` when the budget is exhausted), finishes
within `n - idx` nested calls from any in-bounds start — every recursive
call targets a strictly larger index below `n` — and its result is the
total function `Heapify`. -/
theorem repair_terminates (fuel n : Nat) (f : Nat → Node) (idx : Nat)
    (root : Bool) (h : n - idx < fuel) :
    HeapifyO fuel n f idx root = some (Heapify n f idx root) := by
  rw [heapifyO_some fuel n f idx root h]
  unfold Heapify
  rw [heapifyF_irrel fuel (n+1) n f idx root h (by omega)]

/-- Witness for C9: five steps of budget settle the 4-node pool from the
root. -/
theorem repair_terminates_witness :
    HeapifyO 5 4 cePool4 0 false = some (Heapify 4 cePool4 0 false) :=
  repair_terminates 5 4 cePool4 0 false (by norm_num)

/-! ### Claim C6: `Repair`'s weight frame -/

/-- C6.  `Repair(index, isRoot=false)` changes no node: the pool's
contents are merely permuted.  `Repair(index, isRoot=true)` changes only
the weight of the node initially at `index`: when that node remains the
comparison winner its weight is halved (and it stays at `index`), and
when it is demoted the speculative halving is undone by the doubling, so
the pool's contents are a permutation of the original — no net decay. -/
theorem repair_weight_frame (n : Nat) (f : Nat → Node) (idx : Nat) (h : idx < n) :
    (reify n (Heapify n f idx false)).Perm (reify n f) ∧
    (largestOf n (halveAt f idx) idx = idx →
      Heapify n f idx true idx = { f idx with weight := (f idx).weight / 2 } ∧
      (reify n (Heapify n f idx true)).Perm (reify n (halveAt f idx))) ∧
    (largestOf n (halveAt f idx) idx ≠ idx →
      (reify n (Heapify n f idx true)).Perm (reify n f)) := by
  unfold Heapify
  exact ⟨heapifyF_false_perm (n+1) n f idx,
    fun hst => ⟨heapifyF_true_at_stay n n f idx hst, heapifyF_true_stay n n f idx hst⟩,
    fun hd => heapifyF_true_demote n n f idx hd⟩

/-- Witness for C6 at the 3-node heap `[1, 3/5, 3/10]`: a root repair
demotes the halved root (`3/5 > 1/2`), and the pool contents end up a
permutation of the original — the halving was undone. -/
theorem repair_weight_frame_witness :
    (reify 3 (Heapify 3 cePool3 0 true)).Perm (reify 3 cePool3) :=
  (repair_weight_frame 3 cePool3 0 (by norm_num)).2.2
    (by norm_num [largestOf, halveAt, cePool3, poolOf, upd, getW, isActive])

/-! ### Claim C5: decay monotonicity -/

/-- C5.  A root repair (`Repair(0, isRoot=true)`) on a pool whose root
remains the comparison winner halves the root's weight exactly (strictly
decreasing it whenever it was positive), keeping the same node at the
root; and no call of the root repair ever increases any node's weight —
afterwards every position holds some original node either unchanged or
with its weight exactly halved. -/
theorem selection_decay (n : Nat) (f : Nat → Node) (h0 : 0 < n) :
    (largestOf n (halveAt f 0) 0 = 0 →
      getW (Heapify n f 0 true) 0 = getW f 0 / 2 ∧
      (Heapify n f 0 true 0).url = (f 0).url ∧
      (0 < getW f 0 → getW (Heapify n f 0 true) 0 < getW f 0)) ∧
    (∀ j, j < n → ∃ i, i < n ∧
      (Heapify n f 0 true j = f i ∨
       Heapify n f 0 true j = { f i with weight := (f i).weight / 2 }) ∧
      (0 ≤ (f i).weight → getW (Heapify n f 0 true) j ≤ (f i).weight)) := by
  unfold Heapify getW
  constructor
  · intro hst
    have hat := heapifyF_true_at_stay n n f 0 hst
    refine ⟨by rw [hat], by rw [hat], fun hw => ?_⟩
    rw [hat]
    exact half_lt_self hw
  · intro j hj
    by_cases hst : largestOf n (halveAt f 0) 0 = 0
    · have hp := heapifyF_true_stay n n f 0 hst
      obtain ⟨i, hin, hei⟩ := mem_reify_exists n _ (halveAt f 0) hp j hj
      by_cases hi0 : i = 0
      · subst hi0
        have he0 : halveAt f 0 0 = { f 0 with weight := (f 0).weight / 2 } :=
          upd_self ..
        refine ⟨0, h0, Or.inr (by rw [hei, he0]), fun hw => ?_⟩
        rw [hei, he0]
        exact half_le_self hw
      · have hne : halveAt f 0 i = f i := upd_ne f 0 _ i hi0
        refine ⟨i, hin, Or.inl (by rw [hei, hne]), fun hw => ?_⟩
        rw [hei, hne]
    · have hp := heapifyF_true_demote n n f 0 hst
      obtain ⟨i, hin, hei⟩ := mem_reify_exists n _ f hp j hj
      exact ⟨i, hin, Or.inl hei, fun hw => by rw [hei]⟩

/-- Witness for C5: the lone node of a 1-node pool stays the winner, and a
root repair halves its weight `1` to `1/2` — a strict decrease. -/
theorem selection_decay_witness :
    getW (Heapify 1 onePool 0 true) 0 = getW onePool 0 / 2 ∧
    getW (Heapify 1 onePool 0 true) 0 < getW onePool 0 := by
  have h := (selection_decay 1 onePool (by norm_num)).1
    (by norm_num [largestOf, halveAt, onePool, poolOf, upd, getW, isActive])
  exact ⟨h.1, h.2.2 (by norm_num [getW, onePool, poolOf])⟩

/-! ### Claim C1: the heap invariant after repair (refuted, then amended) -/

/-- Counterexample to C1 as stated.  On the all-active 4-node pool with
weights `1, 2, 1/2, 3`, a single `Repair(0, isRoot=false)` leaves an
active root of weight 2 whose active left child has weight 3; and on the
all-active 3-node max-heap with weights `1, 3/5, 3/10`, a single
`Repair(0, isRoot=true)` leaves an active root of weight `3/5` below its
active left child of weight 1 (the demotion restore re-raises the demoted
root's weight above the promoted child). -/
theorem heap_invariant_counterexample :
    ((Heapify 4 cePool4 0 false 0).Active = true ∧
     (Heapify 4 cePool4 0 false 1).Active = true ∧
     getW (Heapify 4 cePool4 0 false) 0 < getW (Heapify 4 cePool4 0 false) 1) ∧
    ((Heapify 3 cePool3 0 true 0).Active = true ∧
     (Heapify 3 cePool3 0 true 1).Active = true ∧
     getW (Heapify 3 cePool3 0 true) 0 < getW (Heapify 3 cePool3 0 true) 1) := by
  norm_num [Heapify, HeapifyF, largestOf, cePool4, cePool3, poolOf, upd, getW,
    isActive, Swap, trunkF, corrF, halveAt, doubleAt]

/-- `largestOf` at the root, with the child indices written as numerals. -/
theorem largestOf_zero (n : Nat) (f : Nat → Node) :
    largestOf n f 0 =
      if 2 < n ∧ isActive f 2 = true ∧
          getW f (if 1 < n ∧ isActive f 1 = true ∧ getW f 0 < getW f 1 then 1 else 0)
            < getW f 2
      then 2
      else if 1 < n ∧ isActive f 1 = true ∧ getW f 0 < getW f 1 then 1 else 0 := by
  norm_num [largestOf]

/-- C1 (amended).  The per-call heap guarantee that actually holds: on a
pool of at most 3 nodes, immediately after `Repair(0, isRoot=false)`,
every active node's weight is at least the weight of each of its active
children (children of position `j` sit at `2j+1` and `2j+2`).  For pools
of 4 or more nodes, for `isRoot=true`, or for a repair rooted at a
nonzero index, the invariant can fail — see the counterexample. -/
theorem heap_invariant_small_pool (n : Nat) (f : Nat → Node) (hn : n ≤ 3)
    (j c : Nat) (hc : c = 2*j+1 ∨ c = 2*j+2) (hcn : c < n)
    (hja : (Heapify n f 0 false j).Active = true)
    (hca : (Heapify n f 0 false c).Active = true) :
    getW (Heapify n f 0 false) c ≤ getW (Heapify n f 0 false) j := by
  have hj0 : j = 0 := by omega
  subst hj0
  have hcorr : ∀ (g : Nat → Node) (c' : Nat), 1 ≤ c' → corrF n n g c' = g := by
    intro g c' h1
    unfold corrF
    split
    · exact heapifyF_leaf n n g c' (by omega)
    · rfl
  have hres : Heapify n f 0 false =
      if largestOf n f 0 = 0 then f else Swap f (largestOf n f 0) 0 := by
    unfold Heapify
    rw [HeapifyF_succ_false, hcorr _ _ (by omega), hcorr _ _ (by omega), trunkF_false]
    by_cases hLi : largestOf n f 0 = 0
    · rw [if_pos hLi, if_pos hLi]
    · rw [if_neg hLi, if_neg hLi]
      have hb := largestOf_ne n f 0 hLi
      exact heapifyF_leaf n n _ _ (by omega)
  have sw2_0 : Swap f 2 0 0 = f 2 := by simp [Swap, upd]
  have sw2_1 : Swap f 2 0 1 = f 1 := by simp [Swap, upd]
  have sw2_2 : Swap f 2 0 2 = f 0 := by simp [Swap, upd]
  have sw1_0 : Swap f 1 0 0 = f 1 := by simp [Swap, upd]
  have sw1_1 : Swap f 1 0 1 = f 0 := by simp [Swap, upd]
  have sw1_2 : Swap f 1 0 2 = f 2 := by simp [Swap, upd]
  have hc' : c = 1 ∨ c = 2 := by omega
  by_cases h1 : 1 < n ∧ isActive f 1 = true ∧ getW f 0 < getW f 1
  · by_cases h2 : 2 < n ∧ isActive f 2 = true ∧ getW f 1 < getW f 2
    · have hres2 : Heapify n f 0 false = Swap f 2 0 := by
        have hL : largestOf n f 0 = 2 := by
          rw [largestOf_zero, if_pos h1, if_pos h2]
        rw [hres, hL, if_neg (by omega : ¬(2 = 0))]
      rw [hres2] at hja hca ⊢
      simp only [getW]
      rcases hc' with rfl | rfl
      · rw [sw2_0, sw2_1]
        exact le_of_lt (by simpa [getW] using h2.2.2)
      · rw [sw2_0, sw2_2]
        have hlt1 : (f 0).weight < (f 1).weight := by simpa [getW] using h1.2.2
        have hlt2 : (f 1).weight < (f 2).weight := by simpa [getW] using h2.2.2
        linarith
    · have hres2 : Heapify n f 0 false = Swap f 1 0 := by
        have hL : largestOf n f 0 = 1 := by
          rw [largestOf_zero, if_pos h1, if_neg h2]
        rw [hres, hL, if_neg (by omega : ¬(1 = 0))]
      rw [hres2] at hja hca ⊢
      simp only [getW]
      rcases hc' with rfl | rfl
      · rw [sw1_0, sw1_1]
        exact le_of_lt (by simpa [getW] using h1.2.2)
      · rw [sw1_0, sw1_2]
        rw [sw1_2] at hca
        push_neg at h2
        have := h2 hcn (by simpa [isActive] using hca)
        simpa [getW, not_lt] using this
  · by_cases h2 : 2 < n ∧ isActive f 2 = true ∧ getW f 0 < getW f 2
    · have hres2 : Heapify n f 0 false = Swap f 2 0 := by
        have hL : largestOf n f 0 = 2 := by
          rw [largestOf_zero, if_neg h1, if_pos h2]
        rw [hres, hL, if_neg (by omega : ¬(2 = 0))]
      rw [hres2] at hja hca ⊢
      simp only [getW]
      rcases hc' with rfl | rfl
      · rw [sw2_0, sw2_1]
        rw [sw2_1] at hca
        push_neg at h1
        have hle : (f 1).weight ≤ (f 0).weight := by
          have := h1 hcn (by simpa [isActive] using hca)
          simpa [getW, not_lt] using this
        have hlt : (f 0).weight < (f 2).weight := by simpa [getW] using h2.2.2
        linarith
      · rw [sw2_0, sw2_2]
        exact le_of_lt (by simpa [getW] using h2.2.2)
    · have hres2 : Heapify n f 0 false = f := by
        have hL : largestOf n f 0 = 0 := by
          rw [largestOf_zero, if_neg h1, if_neg h2]
        rw [hres, hL, if_pos rfl]
      rw [hres2] at hja hca ⊢
      simp only [getW]
      rcases hc' with rfl | rfl
      · push_neg at h1
        have := h1 hcn (by simpa [isActive] using hca)
        simpa [not_lt, getW] using this
      · push_neg at h2
        have := h2 hcn (by simpa [isActive] using hca)
        simpa [not_lt, getW] using this

set_option maxHeartbeats 1000000 in
/-- Witness for the amended C1: on the 3-node heap `[1, 3/5, 3/10]`,
after `Repair(0, isRoot=false)` the active root dominates its active left
child. -/
theorem heap_invariant_small_pool_witness :
    getW (Heapify 3 cePool3 0 false) 1 ≤ getW (Heapify 3 cePool3 0 false) 0 :=
  heap_invariant_small_pool 3 cePool3 (by norm_num) 0 1 (by norm_num) (by norm_num)
    (by norm_num [Heapify, HeapifyF, largestOf, cePool3, poolOf, upd, getW,
      isActive, Swap, trunkF, corrF, halveAt, doubleAt])
    (by norm_num [Heapify, HeapifyF, largestOf, cePool3, poolOf, upd, getW,
      isActive, Swap, trunkF, corrF, halveAt, doubleAt])

/-! ### One-step laws of the dispatch machine -/

theorem loadBalancer_reject (fuel n : Nat) (f : Nat → Node) (oc : Nat → Bool)
    (k a r : Nat) (ha : a > 3) :
    loadBalancer (fuel+1) n f oc k a r =
      ⟨f, [Ev.respond 503 "Service not available"], k⟩ := by
  unfold loadBalancer
  simp only [stepF]
  rw [if_pos ha]

theorem loadBalancer_empty (fuel : Nat) (f : Nat → Node) (oc : Nat → Bool)
    (k a r : Nat) (ha : ¬ a > 3) :
    loadBalancer (fuel+1) 0 f oc k a r = ⟨f, [Ev.panic "index out of range"], k⟩ := by
  unfold loadBalancer
  simp only [stepF]
  rw [if_neg ha]
  unfold NextNode
  simp

theorem loadBalancer_step (fuel n : Nat) (f : Nat → Node) (oc : Nat → Bool)
    (k a r : Nat) (ha : ¬ a > 3) (hn : n ≠ 0) :
    loadBalancer (fuel+1) n f oc k a r =
      ⟨Heapify n (serveProxy fuel n f oc (f 0).url k a r).pool 0 true,
       (serveProxy fuel n f oc (f 0).url k a r).trace ++ [Ev.repair 0 true],
       (serveProxy fuel n f oc (f 0).url k a r).next⟩ := by
  unfold loadBalancer serveProxy
  simp only [stepF]
  rw [if_neg ha]
  unfold NextNode
  rw [if_neg hn]

theorem serveProxy_success (fuel n : Nat) (f : Nat → Node) (oc : Nat → Bool)
    (url : String) (k a r : Nat) (h : oc k = true) :
    serveProxy (fuel+1) n f oc url k a r = ⟨f, [Ev.forward url], k+1⟩ := by
  unfold serveProxy
  simp only [stepF]
  rw [if_pos h]

theorem serveProxy_retry (fuel n : Nat) (f : Nat → Node) (oc : Nat → Bool)
    (url : String) (k a r : Nat) (hf : oc k = false) (hr : r < 3) :
    serveProxy (fuel+1) n f oc url k a r =
      ⟨(serveProxy fuel n f oc url (k+1) a (r+1)).pool,
       Ev.forward url :: Ev.delay 10 :: (serveProxy fuel n f oc url (k+1) a (r+1)).trace,
       (serveProxy fuel n f oc url (k+1) a (r+1)).next⟩ := by
  unfold serveProxy
  simp only [stepF]
  rw [if_neg (by simp [hf]), if_pos hr]

theorem serveProxy_failover (fuel n : Nat) (f : Nat → Node) (oc : Nat → Bool)
    (url : String) (k a r : Nat) (hf : oc k = false) (hr : ¬ r < 3) :
    serveProxy (fuel+1) n f oc url k a r =
      ⟨(loadBalancer fuel n (if a ≥ 3 then SetNodeStatus n f url false else f)
          oc (k+1) (a+1) r).pool,
       Ev.forward url ::
         ((if a ≥ 3 then [Ev.setStatus url false] else []) ++
          (loadBalancer fuel n (if a ≥ 3 then SetNodeStatus n f url false else f)
            oc (k+1) (a+1) r).trace),
       (loadBalancer fuel n (if a ≥ 3 then SetNodeStatus n f url false else f)
         oc (k+1) (a+1) r).next⟩ := by
  unfold serveProxy loadBalancer
  simp only [stepF]
  rw [if_neg (by simp [hf]), if_neg hr]

/-! ### Claim C2: when the decay repair runs (refuted, then amended) -/

/-- C2 (amended).  `Repair(0, isRoot=true)` runs at the end of *every*
`loadBalancer` frame that passes the attempts guard and selects a node —
regardless of the forwarding outcome.  On success the frame is exactly
"forward, then root repair"; on failure the retry/failover path (the
proxy error handler) runs first and the root repair still follows, because
the proxy call returns normally after its error handler completes. -/
theorem dispatch_decay_after_every_frame (fuel n : Nat) (f : Nat → Node)
    (oc : Nat → Bool) (k a r : Nat) (ha : ¬ a > 3) (hn : n ≠ 0) :
    (∃ pre, (loadBalancer (fuel+2) n f oc k a r).trace = pre ++ [Ev.repair 0 true]) ∧
    (oc k = true →
      loadBalancer (fuel+2) n f oc k a r =
        ⟨Heapify n f 0 true, [Ev.forward (f 0).url, Ev.repair 0 true], k+1⟩) := by
  constructor
  · rw [loadBalancer_step (fuel+1) n f oc k a r ha hn]
    exact ⟨(serveProxy (fuel+1) n f oc (f 0).url k a r).trace, rfl⟩
  · intro hk
    rw [loadBalancer_step (fuel+1) n f oc k a r ha hn,
      serveProxy_success fuel n f oc (f 0).url k a r hk]
    rfl

set_option maxRecDepth 4000 in
set_option maxHeartbeats 1000000 in
/-- Counterexample to C2 as stated: dispatching one request to a 1-node
pool whose forwards all fail produces three `Repair(0, isRoot=true)` calls
even though no forwarding attempt succeeded (one per `loadBalancer` frame,
each running after that frame's proxy call returned from its error
handler). -/
theorem decay_on_failure_counterexample :
    (Dispatch 1 onePool allFail).trace =
      [Ev.forward "a", Ev.delay 10, Ev.forward "a", Ev.delay 10, Ev.forward "a",
       Ev.delay 10, Ev.forward "a", Ev.forward "a", Ev.forward "a",
       Ev.setStatus "a" false, Ev.respond 503 "Service not available",
       Ev.repair 0 true, Ev.repair 0 true, Ev.repair 0 true] ∧
    Ev.repair 0 true ∈ (Dispatch 1 onePool allFail).trace ∧
    allFail = fun _ => false := by
  refine ⟨?_, ?_, rfl⟩
  · norm_num [Dispatch, loadBalancer, stepF, NextNode, allFail, onePool, poolOf]
  · norm_num [Dispatch, loadBalancer, stepF, NextNode, allFail, onePool, poolOf]

/-- Witness for the amended C2: with a succeeding forward, the dispatch
frame is exactly "forward, then root repair". -/
theorem dispatch_decay_after_every_frame_witness :
    (loadBalancer (14+2) 1 onePool (fun _ => true) 0 1 0).trace =
      [Ev.forward "a", Ev.repair 0 true] := by
  have h := (dispatch_decay_after_every_frame 14 1 onePool (fun _ => true) 0 1 0
    (by omega) (by omega)).2 rfl
  rw [h]
  norm_num [onePool, poolOf]

/-! ### Claim C8: the same-node retry bound -/

/-- C8.  While `retries < 3`, a forwarding failure leads — after the fixed
10 ms delay — to a retry against the same node (the same proxy/url, not a
re-selection), with the retry counter incremented; consequently a fresh
request (`retries = 0`) whose forwards keep failing is retried on the same
node exactly 3 times (10 ms apart, 4 forwards in all) before the failover
branch (attempt increment, possible dead-marking, re-dispatch) is
entered. -/
theorem retry_bound (fuel n : Nat) (f : Nat → Node) (oc : Nat → Bool)
    (url : String) (k a : Nat) :
    (∀ r, oc k = false → r < 3 →
      serveProxy (fuel+1) n f oc url k a r =
        ⟨(serveProxy fuel n f oc url (k+1) a (r+1)).pool,
         Ev.forward url :: Ev.delay 10 ::
           (serveProxy fuel n f oc url (k+1) a (r+1)).trace,
         (serveProxy fuel n f oc url (k+1) a (r+1)).next⟩) ∧
    (oc k = false → oc (k+1) = false → oc (k+2) = false → oc (k+3) = false →
      serveProxy (fuel+4) n f oc url k a 0 =
        ⟨(loadBalancer fuel n (if a ≥ 3 then SetNodeStatus n f url false else f)
            oc (k+4) (a+1) 3).pool,
         Ev.forward url :: Ev.delay 10 :: Ev.forward url :: Ev.delay 10 ::
           Ev.forward url :: Ev.delay 10 :: Ev.forward url ::
           ((if a ≥ 3 then [Ev.setStatus url false] else []) ++
            (loadBalancer fuel n (if a ≥ 3 then SetNodeStatus n f url false else f)
              oc (k+4) (a+1) 3).trace),
         (loadBalancer fuel n (if a ≥ 3 then SetNodeStatus n f url false else f)
           oc (k+4) (a+1) 3).next⟩) := by
  constructor
  · intro r h0 hr
    exact serveProxy_retry fuel n f oc url k a r h0 hr
  · intro h0 h1 h2 h3
    rw [serveProxy_retry (fuel+3) n f oc url k a 0 h0 (by omega),
      serveProxy_retry (fuel+2) n f oc url (k+1) a 1 h1 (by omega),
      serveProxy_retry (fuel+1) n f oc url (k+2) a 2 h2 (by omega),
      serveProxy_failover fuel n f oc url (k+3) a 3 h3 (by omega)]

/-- Witness for C8: the first retry of a failing fresh request, read off
from `retry_bound`. -/
theorem retry_bound_witness :
    serveProxy (5+1) 1 onePool allFail "a" 0 1 0 =
      ⟨(serveProxy 5 1 onePool allFail "a" 1 1 1).pool,
       Ev.forward "a" :: Ev.delay 10 ::
         (serveProxy 5 1 onePool allFail "a" 1 1 1).trace,
       (serveProxy 5 1 onePool allFail "a" 1 1 1).next⟩ :=
  (retry_bound 5 1 onePool allFail "a" 0 1).1 0 rfl (by omega)

/-! ### Claim C7: the attempts ceiling and the failover side effect
(refuted in part, then amended) -/

/-- C7 (amended).  A fresh request all of whose forwards fail runs the
full failover ladder: 3 same-node retries, then three failovers — the
2nd and 3rd immediate, since the retry counter is carried over, not
reset — with the node marked dead via `SetNodeStatus` at the failover
where `attempts >= 3`; the request is then rejected 503 and never
forwarded again (the only later events are the three unconditional
post-proxy root repairs).  `SetNodeStatus` itself triggers no heap
repair: no `Repair(idx, isRoot=false)` — the Health Monitor's pattern —
appears anywhere. -/
theorem attempts_ceiling (fuel n : Nat) (f : Nat → Node) (oc : Nat → Bool)
    (hoc : ∀ k', oc k' = false) (hn : n ≠ 0) :
    loadBalancer (fuel+10) n f oc 0 1 0 =
      ⟨Heapify n (Heapify n (Heapify n (SetNodeStatus n f (f 0).url false)
          0 true) 0 true) 0 true,
       [Ev.forward (f 0).url, Ev.delay 10, Ev.forward (f 0).url, Ev.delay 10,
        Ev.forward (f 0).url, Ev.delay 10, Ev.forward (f 0).url,
        Ev.forward (f 0).url, Ev.forward (f 0).url,
        Ev.setStatus (f 0).url false,
        Ev.respond 503 "Service not available",
        Ev.repair 0 true, Ev.repair 0 true, Ev.repair 0 true],
       6⟩ := by
  rw [loadBalancer_step (fuel+9) n f oc 0 1 0 (by omega) hn,
    serveProxy_retry (fuel+8) n f oc (f 0).url 0 1 0 (hoc 0) (by omega),
    serveProxy_retry (fuel+7) n f oc (f 0).url 1 1 1 (hoc 1) (by omega),
    serveProxy_retry (fuel+6) n f oc (f 0).url 2 1 2 (hoc 2) (by omega),
    serveProxy_failover (fuel+5) n f oc (f 0).url 3 1 3 (hoc 3) (by omega),
    if_neg (by omega : ¬(1:Nat) ≥ 3)]
  rw [loadBalancer_step (fuel+4) n f oc 4 2 3 (by omega) hn,
    serveProxy_failover (fuel+3) n f oc (f 0).url 4 2 3 (hoc 4) (by omega),
    if_neg (by omega : ¬(2:Nat) ≥ 3)]
  rw [loadBalancer_step (fuel+2) n f oc 5 3 3 (by omega) hn,
    serveProxy_failover (fuel+1) n f oc (f 0).url 5 3 3 (hoc 5) (by omega),
    if_pos (by omega : (3:Nat) ≥ 3)]
  rw [loadBalancer_reject fuel n (SetNodeStatus n f (f 0).url false) oc 6 4 3 (by omega)]
  rfl

set_option maxRecDepth 4000 in
set_option maxHeartbeats 1000000 in
/-- Counterexample to C7 as stated: the failing node is marked dead via
`SetNodeStatus`, but that marking cascades into no heap repair — the
dispatch contains no `Repair(_, isRoot=false)` call at all (the Health
Monitor's pattern the claim appeals to). -/
theorem failover_no_repair_cascade_counterexample :
    Ev.setStatus "a" false ∈ (Dispatch 1 onePool allFail).trace ∧
    (Dispatch 1 onePool allFail).trace.filter
      (fun e => match e with | Ev.repair _ false => true | _ => false) = [] ∧
    allFail = fun _ => false := by
  refine ⟨?_, ?_, rfl⟩
  · norm_num [Dispatch, loadBalancer, stepF, NextNode, allFail, onePool, poolOf]
  · norm_num [Dispatch, loadBalancer, stepF, NextNode, allFail, onePool, poolOf,
      List.filter]

set_option maxRecDepth 4000 in
set_option maxHeartbeats 1000000 in
/-! ### Claim C3: pool exhaustion -/

/-- C3.  What the code actually does at pool exhaustion: on an *empty*
pool, `NextNode` is `return np.nodes[0]`, a Go runtime panic (index out
of range) — the `node != nil` check can never fail, so the 503 "Downtime:
No nodes available" branch is dead code and the request crashes instead
of receiving 503.  With zero *active* nodes in a nonempty pool, dispatch
selects the inactive root anyway, the forwards fail, and the request ends
with 503 "Service not available" — no panic. -/
theorem pool_exhaustion_behavior :
    loadBalancer 16 0 onePool allFail 0 1 0 =
      ⟨onePool, [Ev.panic "index out of range"], 0⟩ ∧
    NextNode 0 onePool = Except.error "index out of range" ∧
    Ev.respond 503 "Service not available" ∈ (Dispatch 1 onePoolDead allFail).trace ∧
    (Dispatch 1 onePoolDead allFail).trace.filter
      (fun e => match e with | Ev.panic _ => true | _ => false) = [] := by
  refine ⟨loadBalancer_empty 15 onePool allFail 0 1 0 (by omega), rfl, ?_, ?_⟩
  · norm_num [Dispatch, loadBalancer, stepF, NextNode, allFail, onePoolDead, poolOf]
  · norm_num [Dispatch, loadBalancer, stepF, NextNode, allFail, onePoolDead, poolOf,
      List.filter]

/-- Witness for the amended C7: the full event trace of a failing request
against the 1-node pool, read off from `attempts_ceiling`. -/
theorem attempts_ceiling_witness :
    (loadBalancer (6+10) 1 onePool allFail 0 1 0).trace =
      [Ev.forward "a", Ev.delay 10, Ev.forward "a", Ev.delay 10, Ev.forward "a",
       Ev.delay 10, Ev.forward "a", Ev.forward "a", Ev.forward "a",
       Ev.setStatus "a" false, Ev.respond 503 "Service not available",
       Ev.repair 0 true, Ev.repair 0 true, Ev.repair 0 true] := by
  rw [attempts_ceiling 6 1 onePool allFail (fun _ => rfl) (by omega)]
  norm_num [onePool, poolOf]
